import Mathlib

/-!
Shallow embedding of the Arduino AVR EEPROM library
(src/hardware/arduino/avr/libraries/EEPROM/EEPROM.h).

The hardware collaborator supplies two primitives, readByte and writeByte
(eeprom_read_byte / eeprom_write_byte in the source, declared in avr/eeprom.h,
outside this repository). We model the hardware state as a byte store
(a function from addresses to byte values) together with a log of every
physical writeByte call issued, so that write counts are observable.

Addresses are C ints, modelled as Int. Byte values are modelled as Nat;
the conversion of a C int to uint8_t is modelled by byteOfInt (Euclidean
mod 256), and a uint8_t function parameter receiving a Nat argument is
modelled by reducing the argument mod 256 at entry.
-/

/-- Modelled from the spec: the hardware collaborator owns the storage.
readByte(address) returns the byte stored at that address; writeByte issues
one physical write cycle. `mem` is the current storage contents; `log`
records every physical writeByte call (address, value written), in order. -/
structure EEState where
  mem : Int → Nat
  log : List (Int × Nat)

/-- Conversion of a C int value to uint8_t (reduction mod 256, nonnegative). -/
def byteOfInt (v : Int) : Nat := (v % 256).toNat

/-- Modelled from the spec: the external primitive readByte(address). -/
def eeprom_read_byte (s : EEState) (a : Int) : Nat := s.mem a

/-- Modelled from the spec: the external primitive writeByte(address, value);
stores the byte and logs exactly one physical write. -/
def eeprom_write_byte (s : EEState) (a : Int) (v : Nat) : EEState :=
  { mem := fun x => if x = a then v else s.mem x
    log := s.log ++ [(a, v)] }

/-- EERef: a reference to one EEPROM cell; one field, the cell index. -/
structure EERef where
  index : Int

/-- EERef dereference (operator*): eeprom_read_byte at the cell index. -/
def EERef.star (r : EERef) (s : EEState) : Nat := eeprom_read_byte s r.index

/-- EERef assignment from a byte (operator=(uint8_t)): the argument arrives
as an int expression and is converted to uint8_t at the call, then
eeprom_write_byte is issued unconditionally. -/
def EERef.assign (r : EERef) (v : Int) (s : EEState) : EEState :=
  eeprom_write_byte s r.index (byteOfInt v)

/-- EERef copy assignment (operator=(const EERef&)): reads the source cell,
writes that byte to this cell; returns *this, whose index is untouched. -/
def EERef.assignRef (r : EERef) (src : EERef) (s : EEState) : EERef × EEState :=
  (r, r.assign (src.star s : Nat) s)

/-- Compound += : write(read() + in), in converted to uint8_t at entry. -/
def EERef.addAssign (r : EERef) (inp : Nat) (s : EEState) : EEState :=
  r.assign ((r.star s : Int) + ((inp % 256 : Nat) : Int)) s

/-- Compound -= : write(read() - in); the int subtraction may be negative,
the uint8_t conversion at operator= wraps it mod 256. -/
def EERef.subAssign (r : EERef) (inp : Nat) (s : EEState) : EEState :=
  r.assign ((r.star s : Int) - ((inp % 256 : Nat) : Int)) s

/-- Compound *= : write(read() * in). -/
def EERef.mulAssign (r : EERef) (inp : Nat) (s : EEState) : EEState :=
  r.assign ((r.star s : Int) * ((inp % 256 : Nat) : Int)) s

/-- Compound /= : write(read() / in); both operands nonnegative, so C int
division coincides with Nat division. Division by zero is undefined in C. -/
def EERef.divAssign (r : EERef) (inp : Nat) (s : EEState) : EEState :=
  r.assign ((r.star s / (inp % 256) : Nat) : Int) s

/-- Compound %= : write(read() % in). -/
def EERef.modAssign (r : EERef) (inp : Nat) (s : EEState) : EEState :=
  r.assign ((r.star s % (inp % 256) : Nat) : Int) s

/-- Compound ^= : write(read() ^ in), bitwise xor. -/
def EERef.xorAssign (r : EERef) (inp : Nat) (s : EEState) : EEState :=
  r.assign ((r.star s ^^^ (inp % 256) : Nat) : Int) s

/-- Compound &= : write(read() & in), bitwise and. -/
def EERef.andAssign (r : EERef) (inp : Nat) (s : EEState) : EEState :=
  r.assign ((r.star s &&& (inp % 256) : Nat) : Int) s

/-- Compound |= : write(read() | in), bitwise or. -/
def EERef.orAssign (r : EERef) (inp : Nat) (s : EEState) : EEState :=
  r.assign ((r.star s ||| (inp % 256) : Nat) : Int) s

/-- Compound <<= : write(read() << in). -/
def EERef.shlAssign (r : EERef) (inp : Nat) (s : EEState) : EEState :=
  r.assign ((r.star s <<< (inp % 256) : Nat) : Int) s

/-- Compound >>= : write(read() >> in). -/
def EERef.shrAssign (r : EERef) (inp : Nat) (s : EEState) : EEState :=
  r.assign ((r.star s >>> (inp % 256) : Nat) : Int) s

/-- EERef::update: in != read() ? write(in) : no-op. The argument is a
uint8_t parameter (reduced mod 256 at entry). -/
def EERef.update (r : EERef) (inp : Nat) (s : EEState) : EEState :=
  if inp % 256 ≠ r.star s then r.assign ((inp % 256 : Nat) : Int) s else s

/-- EERef postfix ++ : returns the byte read before the increment, together
with the state after *this += 1. -/
def EERef.postInc (r : EERef) (s : EEState) : Nat × EEState :=
  (r.star s, r.addAssign 1 s)

/-- EERef postfix -- : returns the byte read before the decrement, together
with the state after *this -= 1. -/
def EERef.postDec (r : EERef) (s : EEState) : Nat × EEState :=
  (r.star s, r.subAssign 1 s)

/-- EEBit: a reference to a single bit of a cell: the cell reference and a
uint8_t mask with (for bit indices 0..7) exactly one bit set. -/
structure EEBit where
  ref : EERef
  mask : Nat

/-- EEBit constructor: EEBit(index, bidx) with mask = 0x01 << bidx, the
shift result converted to the uint8_t mask field; bidx is a uint8_t
parameter (reduced mod 256 at entry). -/
def EEBit.make (index : Int) (bidx : Nat) : EEBit :=
  { ref := ⟨index⟩, mask := (1 <<< (bidx % 256)) % 256 }

/-- EEBit read (operator bool): ref & mask, coerced to bool (nonzero test). -/
def EEBit.toBool (b : EEBit) (s : EEState) : Bool :=
  (b.ref.star s &&& b.mask) != 0

/-- EEBit assignment from bool: set goes through ref |= mask, clear through
ref &= ~mask; ~mask on the int-promoted uint8_t mask converts back to the
uint8_t 255 - mask at the &= parameter. -/
def EEBit.assignBool (b : EEBit) (v : Bool) (s : EEState) : EEState :=
  if v then b.ref.orAssign b.mask s else b.ref.andAssign (255 - b.mask) s

/-- EEPtr: a pointer to EEPROM cells; one field, the current index. -/
structure EEPtr where
  index : Int

/-- EEPtr coercion to int (operator const int). -/
def EEPtr.toInt (p : EEPtr) : Int := p.index

/-- EEPtr dereference (operator*): an EERef at the current index. -/
def EEPtr.deref (p : EEPtr) : EERef := ⟨p.index⟩

/-- EEPtr operator[]: an EERef at index + idx, without moving the pointer. -/
def EEPtr.cellAt (p : EEPtr) (idx : Int) : EERef := ⟨p.index + idx⟩

/-- EEPtr operator!= : true iff the indices differ. -/
def EEPtr.ne (p q : EEPtr) : Bool := p.index != q.index

/-- EEPtr += : shift the index by a delta. -/
def EEPtr.addAssign (p : EEPtr) (idx : Int) : EEPtr := ⟨p.index + idx⟩

/-- EEPtr -= : shift the index by a negative delta. -/
def EEPtr.subAssign (p : EEPtr) (idx : Int) : EEPtr := ⟨p.index - idx⟩

/-- EEPtr increment (++index): move one cell forward. -/
def EEPtr.inc (p : EEPtr) : EEPtr := ⟨p.index + 1⟩

/-- EEPtr decrement (--index): move one cell back. -/
def EEPtr.dec (p : EEPtr) : EEPtr := ⟨p.index - 1⟩

/- The facade EEPROMClass; its operations take the target state explicitly. -/
namespace EEPROMClass

/-- EEPROMClass::read(ref): returns the ref, read through its coercion. -/
def read (a : Int) (s : EEState) : Nat := (EERef.mk a).star s

/-- EEPROMClass::write(ref, val): ref = val; val is a uint8_t parameter. -/
def write (a : Int) (v : Nat) (s : EEState) : EEState :=
  (EERef.mk a).assign ((v % 256 : Nat) : Int) s

/-- EEPROMClass::update(ref, val): ref.update(val). -/
def update (a : Int) (v : Nat) (s : EEState) : EEState :=
  (EERef.mk a).update v s

/-- EEPROMClass::readBit(ref, bidx): ref[bidx], read through bool coercion. -/
def readBit (a : Int) (bidx : Nat) (s : EEState) : Bool :=
  (EEBit.make a bidx).toBool s

/-- EEPROMClass::writeBit(ref, bidx, val): ref[bidx] = val. -/
def writeBit (a : Int) (bidx : Nat) (v : Bool) (s : EEState) : EEState :=
  (EEBit.make a bidx).assignBool v s

/-- EEPROMClass::length(): E2END + 1 as uint16_t. E2END is the device
constant from avr/io.h (outside this repository), taken as a parameter. -/
def length (e2end : Nat) : Nat := (e2end + 1) % 65536

/-- EEPROMClass::begin(): EEPtr at 0. -/
def begin : EEPtr := ⟨0⟩

/-- EEPROMClass::end(): EEPtr at length(), one past the last valid cell. -/
def endPtr (e2end : Nat) : EEPtr := ⟨(length e2end : Nat)⟩

/-- EEPROMClass::get: reads sizeof(T) bytes from consecutive ascending cells
starting at ptr, one cell per loop step (*dest++ = *ptr with ++ptr), into
the destination low-to-high; modelled as the list of bytes produced. -/
def get : EEPtr → Nat → EEState → List Nat
  | _, 0, _ => []
  | p, n + 1, s => p.deref.star s :: get p.inc n s

/-- EEPROMClass::put: writes the sizeof(T) source bytes to consecutive
ascending cells starting at ptr, via (*ptr).update(*src++) with ++ptr;
modelled on the list of source bytes. -/
def put : EEPtr → List Nat → EEState → EEState
  | _, [], s => s
  | p, b :: rest, s => put p.inc rest (p.deref.update b s)

end EEPROMClass

/-- The addresses visited by stepping a pointer with ++ while it compares
!= to the sentinel, with explicit fuel (the loop as iterated in C++11
range-for over the EEPROM space). -/
def EEPtr.visitFrom : Nat → EEPtr → EEPtr → List Int
  | 0, _, _ => []
  | fuel + 1, p, e => if p.ne e then p.index :: EEPtr.visitFrom fuel p.inc e else []

/-- The physical writes put issues, predicted from the initial state: one
write per byte position whose stored byte differs from the source byte. -/
def putDiffLog : EEPtr → List Nat → EEState → List (Int × Nat)
  | _, [], _ => []
  | p, b :: rest, s =>
      (if b % 256 ≠ s.mem p.index then [(p.index, b % 256)] else [])
        ++ putDiffLog p.inc rest s

/-- A concrete state holding 0 everywhere, with an empty write log. -/
def st0 : EEState := ⟨fun _ => 0, []⟩

/-- A concrete state holding 5 everywhere, with an empty write log. -/
def st5 : EEState := ⟨fun _ => 5, []⟩

theorem byteOfInt_ofNat (n : Nat) : byteOfInt (n : Int) = n % 256 := by
  unfold byteOfInt; omega

theorem EEState.mem_assign (r : EERef) (v : Int) (s : EEState) (x : Int) :
    (r.assign v s).mem x = if x = r.index then byteOfInt v else s.mem x := rfl

theorem EEState.log_assign (r : EERef) (v : Int) (s : EEState) :
    (r.assign v s).log = s.log ++ [(r.index, byteOfInt v)] := rfl

theorem EERef.mem_update_self (r : EERef) (inp : Nat) (s : EEState) :
    (r.update inp s).mem r.index = inp % 256 := by
  unfold EERef.update
  by_cases h : inp % 256 ≠ r.star s
  · rw [if_pos h, EEState.mem_assign, if_pos rfl]
    unfold byteOfInt; omega
  · rw [if_neg h]
    push_neg at h
    simpa [EERef.star, eeprom_read_byte] using h.symm

theorem EERef.mem_update_other (r : EERef) (inp : Nat) (s : EEState) (x : Int)
    (hx : x ≠ r.index) : (r.update inp s).mem x = s.mem x := by
  unfold EERef.update
  by_cases h : inp % 256 ≠ r.star s
  · simp [h, EEState.mem_assign, hx]
  · simp [h]

theorem assign_congr (r : EERef) (v w : Int) (s : EEState)
    (h : byteOfInt v = byteOfInt w) : r.assign v s = r.assign w s := by
  unfold EERef.assign; rw [h]


/-- C7: write then read returns the written byte; read is a pure function
of the current storage, always returning the byte currently stored. -/
theorem C7_write_read (a : Int) (v : Nat) (s : EEState) (hv : v < 256) :
    EEPROMClass.read a (EEPROMClass.write a v s) = v
  ∧ (∀ t : EEState, EEPROMClass.read a t = t.mem a) := by
  constructor
  · show (EEState.mem _ a) = v
    rw [EEPROMClass.write, EEState.mem_assign, if_pos rfl]
    unfold byteOfInt; omega
  · intro t; rfl

theorem C7_witness :
    EEPROMClass.read 0 (EEPROMClass.write 0 170 st0) = 170 :=
  (C7_write_read 0 170 st0 (by decide)).1

/-- C1: update then read yields the value; if the stored byte already equals
the value, update issues zero physical writes; write always appends exactly
one physical write to the log. -/
theorem C1_update_conditional (a : Int) (v : Nat) (s : EEState) (hv : v < 256) :
    EEPROMClass.read a (EEPROMClass.update a v s) = v
  ∧ (EEPROMClass.read a s = v → (EEPROMClass.update a v s).log = s.log)
  ∧ (∀ w : Nat, (EEPROMClass.write a w s).log = s.log ++ [(a, w % 256)]) := by
  refine ⟨?_, ?_, ?_⟩
  · show (EEState.mem _ a) = v
    rw [EEPROMClass.update, EERef.mem_update_self]
    omega
  · intro hr
    rw [EEPROMClass.update, EERef.update, if_neg]
    push_neg
    rw [Nat.mod_eq_of_lt hv]
    exact hr.symm
  · intro w
    rw [EEPROMClass.write, EEState.log_assign, byteOfInt_ofNat]
    simp [Nat.mod_mod_of_dvd]

theorem C1_witness :
    EEPROMClass.read 0 (EEPROMClass.update 0 5 st0) = 5 :=
  (C1_update_conditional 0 5 st0 (by decide)).1

/-- C5: every compound assignment equals write(read() op operand): the
computed byte is stored through the unconditional write path, which appends
exactly one physical write to the log in every case. -/
theorem C5_compound_ops (r : EERef) (n : Nat) (s : EEState) :
    r.addAssign n s = EEPROMClass.write r.index (r.star s + n % 256) s
  ∧ r.subAssign n s = EEPROMClass.write r.index (r.star s + (256 - n % 256)) s
  ∧ r.mulAssign n s = EEPROMClass.write r.index (r.star s * (n % 256)) s
  ∧ r.divAssign n s = EEPROMClass.write r.index (r.star s / (n % 256)) s
  ∧ r.xorAssign n s = EEPROMClass.write r.index (r.star s ^^^ n % 256) s
  ∧ r.modAssign n s = EEPROMClass.write r.index (r.star s % (n % 256)) s
  ∧ r.andAssign n s = EEPROMClass.write r.index (r.star s &&& n % 256) s
  ∧ r.orAssign n s = EEPROMClass.write r.index (r.star s ||| n % 256) s
  ∧ r.shlAssign n s = EEPROMClass.write r.index (r.star s <<< (n % 256)) s
  ∧ r.shrAssign n s = EEPROMClass.write r.index (r.star s >>> (n % 256)) s
  ∧ (∀ v : Nat, (EEPROMClass.write r.index v s).log = s.log ++ [(r.index, v % 256)]) := by
  refine ⟨?_, ?_, ?_, ?_, ?_, ?_, ?_, ?_, ?_, ?_, ?_⟩
  · exact assign_congr _ _ _ _ (by unfold byteOfInt; omega)
  · exact assign_congr _ _ _ _ (by unfold byteOfInt; omega)
  · exact assign_congr _ _ _ _ (by rw [← Nat.cast_mul, byteOfInt_ofNat, byteOfInt_ofNat, Nat.mod_mod])
  · exact assign_congr _ _ _ _ (by rw [byteOfInt_ofNat, byteOfInt_ofNat, Nat.mod_mod])
  · exact assign_congr _ _ _ _ (by rw [byteOfInt_ofNat, byteOfInt_ofNat, Nat.mod_mod])
  · exact assign_congr _ _ _ _ (by rw [byteOfInt_ofNat, byteOfInt_ofNat, Nat.mod_mod])
  · exact assign_congr _ _ _ _ (by rw [byteOfInt_ofNat, byteOfInt_ofNat, Nat.mod_mod])
  · exact assign_congr _ _ _ _ (by rw [byteOfInt_ofNat, byteOfInt_ofNat, Nat.mod_mod])
  · exact assign_congr _ _ _ _ (by rw [byteOfInt_ofNat, byteOfInt_ofNat, Nat.mod_mod])
  · exact assign_congr _ _ _ _ (by rw [byteOfInt_ofNat, byteOfInt_ofNat, Nat.mod_mod])
  · intro v
    rw [EEPROMClass.write, EEState.log_assign, byteOfInt_ofNat, Nat.mod_mod]

/-- C8: postfix increment returns the pre-operation byte and leaves the
cell holding that byte plus one mod 256; at 5 it returns 5 and the cell
reads 6; postfix decrement returns the pre-operation byte and leaves the
cell decremented (wrapping mod 256). -/
theorem C8_post_ops (r : EERef) (s : EEState) :
    (r.postInc s).1 = r.star s
  ∧ (r.postInc s).2.mem r.index = (r.star s + 1) % 256
  ∧ (r.postDec s).1 = r.star s
  ∧ (r.postDec s).2.mem r.index = byteOfInt ((r.star s : Int) - 1)
  ∧ (r.star s = 5 →
      (r.postInc s).1 = 5 ∧ (r.postInc s).2.mem r.index = 6) := by
  refine ⟨rfl, ?_, rfl, ?_, ?_⟩
  · show (EEState.mem _ r.index) = _
    rw [EERef.postInc, EERef.addAssign, EEState.mem_assign, if_pos rfl]
    unfold byteOfInt; omega
  · show (EEState.mem _ r.index) = _
    rw [EERef.postDec, EERef.subAssign, EEState.mem_assign, if_pos rfl]
    unfold byteOfInt; omega
  · intro h5
    refine ⟨h5, ?_⟩
    show (EEState.mem _ r.index) = _
    rw [EERef.postInc, EERef.addAssign, EEState.mem_assign, if_pos rfl, h5]
    unfold byteOfInt; omega

theorem C8_witness :
    ((EERef.mk 0).postInc st5).1 = 5
  ∧ ((EERef.mk 0).postInc st5).2.mem 0 = 6 :=
  (C8_post_ops (EERef.mk 0) st5).2.2.2.2 rfl

/-- C9: copy assignment between cell references copies the byte, not the
coordinate: the receiving reference keeps its address, the destination cell
gets the byte read from the source cell via one physical write, and the
source cell's byte is unchanged when the addresses differ. -/
theorem C9_copy_assign (c1 c2 : EERef) (s : EEState)
    (h2 : s.mem c2.index < 256) :
    (c1.assignRef c2 s).1.index = c1.index
  ∧ (c1.assignRef c2 s).2.mem c1.index = s.mem c2.index
  ∧ (c2.index ≠ c1.index → (c1.assignRef c2 s).2.mem c2.index = s.mem c2.index)
  ∧ (c1.assignRef c2 s).2.log = s.log ++ [(c1.index, s.mem c2.index)] := by
  refine ⟨rfl, ?_, ?_, ?_⟩
  · show (EEState.mem _ c1.index) = _
    rw [EERef.assignRef, EEState.mem_assign, if_pos rfl, byteOfInt_ofNat]
    exact Nat.mod_eq_of_lt h2
  · intro hne
    show (EEState.mem _ c2.index) = _
    rw [EERef.assignRef, EEState.mem_assign, if_neg hne]
  · show (EEState.log _) = _
    rw [EERef.assignRef, EEState.log_assign, byteOfInt_ofNat,
      Nat.mod_eq_of_lt (show c2.star s < 256 from h2)]
    rfl

theorem C9_witness :
    ((EERef.mk 1).assignRef (EERef.mk 2) st5).1.index = 1
  ∧ ((EERef.mk 1).assignRef (EERef.mk 2) st5).2.mem 1 = st5.mem 2
  ∧ ((2 : Int) ≠ 1 → ((EERef.mk 1).assignRef (EERef.mk 2) st5).2.mem 2 = st5.mem 2)
  ∧ ((EERef.mk 1).assignRef (EERef.mk 2) st5).2.log = st5.log ++ [(1, st5.mem 2)] :=
  C9_copy_assign (EERef.mk 1) (EERef.mk 2) st5 (by decide)

/-- C10: with a nonzero byte operand, the compound division stores the
byte quotient and the compound modulo stores the byte remainder of the
stored byte by the operand. -/
theorem C10_div_mod (r : EERef) (n : Nat) (s : EEState)
    (hn0 : n ≠ 0) (hn : n < 256) (hs : s.mem r.index < 256) :
    (r.divAssign n s).mem r.index = r.star s / n
  ∧ (r.modAssign n s).mem r.index = r.star s % n := by
  have hx : r.star s < 256 := hs
  constructor
  · show (EEState.mem _ r.index) = _
    rw [EERef.divAssign, EEState.mem_assign, if_pos rfl, byteOfInt_ofNat,
      Nat.mod_eq_of_lt hn]
    exact Nat.mod_eq_of_lt (lt_of_le_of_lt (Nat.div_le_self _ _) hx)
  · show (EEState.mem _ r.index) = _
    rw [EERef.modAssign, EEState.mem_assign, if_pos rfl, byteOfInt_ofNat,
      Nat.mod_eq_of_lt hn]
    exact Nat.mod_eq_of_lt (lt_of_le_of_lt (Nat.mod_le _ _) hx)

theorem C10_witness :
    ((EERef.mk 0).divAssign 2 st5).mem 0 = (EERef.mk 0).star st5 / 2
  ∧ ((EERef.mk 0).modAssign 2 st5).mem 0 = (EERef.mk 0).star st5 % 2 :=
  C10_div_mod (EERef.mk 0) 2 st5 (by decide) (by decide) (by decide)

theorem and_mask_ne_zero (x i : Nat) : ((x &&& (1 <<< i)) != 0) = x.testBit i := by
  rw [Nat.one_shiftLeft, Nat.and_two_pow]
  cases h : x.testBit i <;> simp [Nat.pow_eq_zero]

theorem EEBit.make_mask (a : Int) (i : Nat) (hi : i < 8) :
    (EEBit.make a i).mask = 2 ^ i := by
  have hx : 2 ^ i < 256 := lt_of_lt_of_le (Nat.pow_lt_pow_right (by norm_num) hi) (by norm_num)
  unfold EEBit.make
  rw [Nat.mod_eq_of_lt (by omega : i < 256), Nat.one_shiftLeft]
  exact Nat.mod_eq_of_lt hx

theorem testBit_byte_or (x i j : Nat) (hj : j < 8) :
    ((x ||| 2 ^ i) % 256).testBit j = (x.testBit j || decide (i = j)) := by
  rw [(by norm_num : (256 : Nat) = 2 ^ 8), Nat.testBit_mod_two_pow]
  simp [hj, Nat.testBit_two_pow]

theorem testBit_byte_clear (x i j : Nat) (hj : j < 8) (hi : i < 8) :
    ((x &&& (255 - 2 ^ i)) % 256).testBit j = (x.testBit j && !decide (i = j)) := by
  have hx : 2 ^ i < 2 ^ 8 := Nat.pow_lt_pow_right (by norm_num) hi
  have h255 : 255 - 2 ^ i = 2 ^ 8 - (2 ^ i + 1) := by omega
  rw [(by norm_num : (256 : Nat) = 2 ^ 8), Nat.testBit_mod_two_pow, h255,
    Nat.testBit_and, Nat.testBit_two_pow_sub_succ hx]
  simp [hj, Nat.testBit_two_pow]

theorem EEBit.make_ref (a : Int) (i : Nat) : (EEBit.make a i).ref = EERef.mk a := rfl

theorem mem_writeBit (a : Int) (i : Nat) (hi : i < 8) (b : Bool) (s : EEState) :
    (EEPROMClass.writeBit a i b s).mem a =
      if b then (s.mem a ||| 2 ^ i) % 256 else (s.mem a &&& (255 - 2 ^ i)) % 256 := by
  have hmlt : 2 ^ i < 256 :=
    lt_of_lt_of_le (Nat.pow_lt_pow_right (by norm_num) hi) (by norm_num)
  unfold EEPROMClass.writeBit EEBit.assignBool
  rw [EEBit.make_mask a i hi, EEBit.make_ref]
  cases b
  · rw [if_neg (by simp), EERef.andAssign, EEState.mem_assign,
      if_pos rfl, Nat.mod_eq_of_lt (lt_of_le_of_lt (Nat.sub_le _ _) (by norm_num) : 255 - 2 ^ i < 256), byteOfInt_ofNat]
    rfl
  · rw [if_pos rfl, EERef.orAssign, EEState.mem_assign,
      if_pos rfl, Nat.mod_eq_of_lt hmlt, byteOfInt_ofNat]
    rfl

theorem readBit_eq_testBit (a : Int) (i : Nat) (hi : i < 8) (s : EEState) :
    EEPROMClass.readBit a i s = (s.mem a).testBit i := by
  unfold EEPROMClass.readBit EEBit.toBool
  rw [EEBit.make_mask a i hi, EEBit.make_ref, ← Nat.one_shiftLeft, and_mask_ne_zero]
  rfl

/-- C4: after writeBit(a, i, b), readBit(a, i) yields b while the other 7
bits of the byte at a are unchanged; readBit(a, i) is true iff
(read(a) & (1 << i)) != 0. -/
theorem C4_writeBit_readBit (a : Int) (i : Nat) (hi : i < 8) (b : Bool) (s : EEState) :
    EEPROMClass.readBit a i (EEPROMClass.writeBit a i b s) = b
  ∧ (∀ j : Nat, j < 8 → j ≠ i →
      EEPROMClass.readBit a j (EEPROMClass.writeBit a i b s) = EEPROMClass.readBit a j s)
  ∧ EEPROMClass.readBit a i s = ((EEPROMClass.read a s &&& (1 <<< i)) != 0) := by
  refine ⟨?_, ?_, ?_⟩
  · rw [readBit_eq_testBit a i hi, mem_writeBit a i hi]
    cases b
    · simp [testBit_byte_clear _ i i hi hi]
    · simp [testBit_byte_or _ i i hi]
  · intro j hj hji
    rw [readBit_eq_testBit a j hj, readBit_eq_testBit a j hj, mem_writeBit a i hi]
    have hij : i ≠ j := Ne.symm hji
    cases b
    · simp [testBit_byte_clear _ i j hj hi, hij]
    · simp [testBit_byte_or _ i j hj, hij]
  · rw [readBit_eq_testBit a i hi, and_mask_ne_zero]
    rfl

theorem C4_witness :
    EEPROMClass.readBit 10 3 (EEPROMClass.writeBit 10 3 true st0) = true
  ∧ (∀ j : Nat, j < 8 → j ≠ 3 →
      EEPROMClass.readBit 10 j (EEPROMClass.writeBit 10 3 true st0) = EEPROMClass.readBit 10 j st0)
  ∧ EEPROMClass.readBit 10 3 st0 = ((EEPROMClass.read 10 st0 &&& (1 <<< 3)) != 0) :=
  C4_writeBit_readBit 10 3 (by decide) true st0

theorem visitFrom_eq (n : Nat) : ∀ a : Int,
    EEPtr.visitFrom n ⟨a⟩ ⟨a + n⟩ = (List.range n).map (fun i : Nat => a + (i : Int)) := by
  induction n with
  | zero => intro a; rfl
  | succ k ih =>
    intro a
    rw [EEPtr.visitFrom, if_pos (by simp [EEPtr.ne]; omega)]
    have hstep : (a : Int) + ((k : Nat) + 1 : Nat) = (a + 1) + (k : Nat) := by
      push_cast; ring
    rw [show (⟨a⟩ : EEPtr).inc = (⟨a + 1⟩ : EEPtr) from rfl, hstep, ih (a + 1),
      List.range_succ_eq_map, List.map_cons, List.map_map]
    congr 1
    · simp
    · congr 1
      funext i
      simp [Function.comp]
      ring

/-- C6: begin() is the pointer at address 0, end() the pointer at address
length(); stepping from begin() by increment while != end() visits exactly
length() distinct addresses 0..length()-1, each exactly once; pointer
addition through the int coercion satisfies ptr(0) + 3 == ptr(3); two
pointers compare unequal iff their addresses differ. -/
theorem C6_range_iteration (e2end : Nat) :
    EEPROMClass.begin.index = 0
  ∧ (EEPROMClass.endPtr e2end).index = (EEPROMClass.length e2end : Int)
  ∧ EEPtr.visitFrom (EEPROMClass.length e2end) EEPROMClass.begin (EEPROMClass.endPtr e2end)
      = (List.range (EEPROMClass.length e2end)).map (fun i : Nat => (i : Int))
  ∧ ((List.range (EEPROMClass.length e2end)).map (fun i : Nat => (i : Int))).length
      = EEPROMClass.length e2end
  ∧ ((List.range (EEPROMClass.length e2end)).map (fun i : Nat => (i : Int))).Nodup
  ∧ (∀ x : Int, x ∈ (List.range (EEPROMClass.length e2end)).map (fun i : Nat => (i : Int))
      ↔ ∃ i : Nat, i < EEPROMClass.length e2end ∧ (i : Int) = x)
  ∧ EEPtr.toInt (EEPtr.addAssign ⟨0⟩ 3) = EEPtr.toInt ⟨3⟩
  ∧ (∀ p q : EEPtr, p.ne q = true ↔ p.index ≠ q.index) := by
  refine ⟨rfl, rfl, ?_, ?_, ?_, ?_, rfl, ?_⟩
  · have h := visitFrom_eq (EEPROMClass.length e2end) 0
    rw [show ((0 : Int) + (EEPROMClass.length e2end : Nat)) = (EEPROMClass.length e2end : Int)
        by ring] at h
    rw [show EEPROMClass.begin = (⟨0⟩ : EEPtr) from rfl,
      show EEPROMClass.endPtr e2end = (⟨(EEPROMClass.length e2end : Int)⟩ : EEPtr) from rfl, h]
    simp
  · simp
  · exact List.Nodup.map (fun x y h => by exact_mod_cast h) (List.nodup_range _)
  · intro x
    simp [List.mem_map, List.mem_range]
  · intro p q
    simp [EEPtr.ne]

theorem put_mem_lt (bytes : List Nat) : ∀ (p : EEPtr) (s : EEState) (x : Int),
    x < p.index → (EEPROMClass.put p bytes s).mem x = s.mem x := by
  induction bytes with
  | nil => intro p s x _; rfl
  | cons b rest ih =>
    intro p s x h
    rw [EEPROMClass.put, ih p.inc _ x (by simp only [EEPtr.inc]; omega)]
    exact EERef.mem_update_other _ _ _ _ (by show x ≠ p.index; omega)

theorem get_spec (n : Nat) : ∀ (p : EEPtr) (s : EEState),
    EEPROMClass.get p n s = (List.range n).map (fun i : Nat => s.mem (p.index + (i : Int))) := by
  induction n with
  | zero => intro p s; rfl
  | succ k ih =>
    intro p s
    rw [EEPROMClass.get, ih p.inc s, List.range_succ_eq_map, List.map_cons, List.map_map]
    congr 1
    · show s.mem p.index = s.mem (p.index + ((0 : Nat) : Int))
      norm_num
    · congr 1
      funext i
      show s.mem (p.index + 1 + (i : Int)) = s.mem (p.index + ((i + 1 : Nat) : Int))
      push_cast
      ring_nf

theorem put_get_aux (bytes : List Nat) : ∀ (p : EEPtr) (s : EEState),
    (∀ b ∈ bytes, b < 256) →
    EEPROMClass.get p bytes.length (EEPROMClass.put p bytes s) = bytes := by
  induction bytes with
  | nil => intro p s _; rfl
  | cons b rest ih =>
    intro p s h
    rw [List.length_cons, EEPROMClass.put, EEPROMClass.get]
    congr 1
    · show (EEPROMClass.put p.inc rest _).mem p.index = b
      rw [put_mem_lt rest p.inc _ p.index (by simp only [EEPtr.inc]; omega)]
      show (p.deref.update b s).mem p.deref.index = b
      rw [EERef.mem_update_self]
      exact Nat.mod_eq_of_lt (h b (by simp))
    · exact ih p.inc _ (fun x hx => h x (by simp [hx]))

/-- C2: put followed by get round-trips the byte representation; get reads
sizeof(T) bytes from consecutive ascending addresses starting at the
pointer, producing the destination bytes low-to-high. -/
theorem C2_put_get_roundtrip (p : EEPtr) (bytes : List Nat) (s : EEState)
    (h : ∀ b ∈ bytes, b < 256) :
    EEPROMClass.get p bytes.length (EEPROMClass.put p bytes s) = bytes
  ∧ (∀ (n : Nat) (t : EEState),
      EEPROMClass.get p n t = (List.range n).map (fun i : Nat => t.mem (p.index + (i : Int)))) :=
  ⟨put_get_aux bytes p s h, fun n t => get_spec n p t⟩

theorem C2_witness :
    EEPROMClass.get ⟨0⟩ ([1, 2, 255].length) (EEPROMClass.put ⟨0⟩ [1, 2, 255] st0) = [1, 2, 255] :=
  (C2_put_get_roundtrip ⟨0⟩ [1, 2, 255] st0 (by decide)).1

theorem putDiffLog_congr (bytes : List Nat) : ∀ (p : EEPtr) (s t : EEState),
    (∀ i : Nat, i < bytes.length → s.mem (p.index + (i : Int)) = t.mem (p.index + (i : Int))) →
    putDiffLog p bytes s = putDiffLog p bytes t := by
  induction bytes with
  | nil => intro p s t _; rfl
  | cons b rest ih =>
    intro p s t h
    rw [putDiffLog, putDiffLog]
    have h0 : s.mem p.index = t.mem p.index := by
      have := h 0 (by simp)
      simpa using this
    rw [h0, ih p.inc s t ?_]
    intro i hi
    have := h (i + 1) (by simp; omega)
    show s.mem (p.index + 1 + (i : Int)) = t.mem (p.index + 1 + (i : Int))
    rw [show p.index + 1 + (i : Int) = p.index + ((i + 1 : Nat) : Int) by push_cast; ring]
    exact this

theorem put_log_eq (bytes : List Nat) : ∀ (p : EEPtr) (s : EEState),
    (EEPROMClass.put p bytes s).log = s.log ++ putDiffLog p bytes s := by
  induction bytes with
  | nil => intro p s; simp [EEPROMClass.put, putDiffLog]
  | cons b rest ih =>
    intro p s
    rw [EEPROMClass.put, putDiffLog, ih p.inc]
    have hcongr : putDiffLog p.inc rest (p.deref.update b s) = putDiffLog p.inc rest s := by
      apply putDiffLog_congr
      intro i _
      exact EERef.mem_update_other _ _ _ _ (by show _ ≠ p.index; simp only [EEPtr.inc]; omega)
    rw [hcongr]
    by_cases hb : b % 256 ≠ s.mem p.index
    · rw [show (p.deref.update b s).log = s.log ++ [(p.index, b % 256)] from ?_,
        if_pos hb, List.append_assoc]
      rw [EERef.update, if_pos (by exact hb), EEState.log_assign, byteOfInt_ofNat, Nat.mod_mod]
      rfl
    · rw [show (p.deref.update b s).log = s.log from ?_, if_neg hb, List.nil_append]
      rw [EERef.update, if_neg (by exact hb)]

theorem putDiffLog_nil_of_match (bytes : List Nat) : ∀ (p : EEPtr) (s : EEState),
    (∀ i : Nat, (hi : i < bytes.length) → s.mem (p.index + (i : Int)) = bytes[i] % 256) →
    putDiffLog p bytes s = [] := by
  induction bytes with
  | nil => intro p s _; rfl
  | cons b rest ih =>
    intro p s h
    rw [putDiffLog, if_neg ?_, List.nil_append]
    · apply ih p.inc
      intro i hi
      have := h (i + 1) (by simp; omega)
      show s.mem (p.index + 1 + (i : Int)) = rest[i] % 256
      rw [show p.index + 1 + (i : Int) = p.index + ((i + 1 : Nat) : Int) by push_cast; ring]
      simpa using this
    · have h0 := h 0 (by simp)
      simp at h0
      omega

/-- C3: put issues a physical write exactly at the byte positions whose
stored byte differs from the corresponding source byte; in particular, if
the cells already hold the byte pattern, put issues zero physical writes. -/
theorem C3_put_write_minimization (p : EEPtr) (bytes : List Nat) (s : EEState) :
    (EEPROMClass.put p bytes s).log = s.log ++ putDiffLog p bytes s
  ∧ ((∀ i : Nat, (hi : i < bytes.length) → s.mem (p.index + (i : Int)) = bytes[i] % 256) →
      (EEPROMClass.put p bytes s).log = s.log) := by
  refine ⟨put_log_eq bytes p s, fun h => ?_⟩
  rw [put_log_eq bytes p s, putDiffLog_nil_of_match bytes p s h, List.append_nil]

theorem C3_witness :
    (EEPROMClass.put ⟨0⟩ [5, 5] st5).log = st5.log ++ putDiffLog ⟨0⟩ [5, 5] st5
  ∧ ((∀ i : Nat, (hi : i < [5, 5].length) → st5.mem ((0 : Int) + (i : Int)) = [5, 5][i] % 256) →
      (EEPROMClass.put ⟨0⟩ [5, 5] st5).log = st5.log) :=
  C3_put_write_minimization ⟨0⟩ [5, 5] st5
